import Mathlib

/-!
Verification of the litcrypt string-obfuscation engine (src/litcrypt.rs).

Bytes are modelled as `Nat` (all byte values stay below 256 and XOR cannot
overflow, so no modular reduction is needed).  A Rust `String` is modelled by
its UTF-8 byte list; `String::from_utf8` is modelled by an executable UTF-8
validator plus an `Option` result, where `none` stands for the `unwrap` panic.
-/

namespace Litcrypt

/-- The fixed obfuscation constant `b"ESJCTVgWH5HQFza7GdRx"` that
`use_litcrypt` and `encrypt_string` XOR the magic spell against. -/
def FIXED_KEY : List Nat :=
  [69, 83, 74, 67, 84, 86, 103, 87, 72, 53, 72, 81, 70, 122, 97, 55, 71, 100, 82, 120]

namespace litcrypt_internal

/-- Embeds `xor_with_byte` of the generated `litcrypt_internal` module:
XOR every byte of `source` with the single byte `byte`. -/
def xor_with_byte (source : List Nat) (byte : Nat) : List Nat :=
  source.map (fun a => a ^^^ byte)

/-- Embeds `next_index` of the generated `litcrypt_internal` module:
`if index + 1 < count { index + 1 } else { 0 }`. -/
def next_index (index count : Nat) : Nat :=
  if index + 1 < count then index + 1 else 0

/-- The first `n` bytes produced by `InfiniteByteIterator` over `bytes`
starting at `index`.  The unguarded Rust indexing `self.bytes[self.index]`
is rendered total with `List.getD _ _ 0`; `iterTakeChecked` below models the
panicking access exactly, and the two are proved to agree on every state the
program reaches. -/
def iterTake (bytes : List Nat) (index : Nat) : Nat → List Nat
  | 0 => []
  | n + 1 => bytes.getD index 0 :: iterTake bytes (next_index index bytes.length) n

/-- Faithful model of `n` calls of `InfiniteByteIterator::next`: the access
`self.bytes[self.index]` panics (`none`) when the index is out of bounds. -/
def iterTakeChecked (bytes : List Nat) (index : Nat) : Nat → Option (List Nat)
  | 0 => some []
  | n + 1 =>
    match bytes[index]? with
    | none => none
    | some b => (iterTakeChecked bytes (next_index index bytes.length) n).map (b :: ·)

/-- The general keystream branch of `xor` (the `_ =>` arm): zip `source`
with the infinite byte iterator over `key` and XOR pointwise.  Rust's
`zip` stops at the shorter sequence, i.e. after `source.length` key bytes. -/
def xorGeneral (source key : List Nat) : List Nat :=
  List.zipWith (fun a b => a ^^^ b) source (iterTake key 0 source.length)

/-- Embeds `xor` of the generated `litcrypt_internal` module: Rust matches on
`key.len()` (`0`, `1`, `_`), rendered here as the equivalent match on the list
shape; the empty key returns `source`, a single-byte key uses `xor_with_byte`
with `key[0]`, otherwise the `InfiniteByteIterator` keystream. -/
def xor (source key : List Nat) : List Nat :=
  match key with
  | [] => source
  | [b] => xor_with_byte source b
  | _ :: _ :: _ => xorGeneral source key

/-- State of the UTF-8 validation automaton: `start` between characters,
`need k lo hi` when `k + 1` continuation bytes are still expected and the
next one must lie in `lo..=hi` (after the first continuation byte the range
is always the generic `0x80..=0xBF`). -/
inductive Utf8State where
  | start
  | need (k lo hi : Nat)
deriving DecidableEq

/-- One byte of Rust's standard-library UTF-8 validation (the check behind
`String::from_utf8`): leading-byte ranges `0x00..=0x7F`, `0xC2..=0xDF`,
`0xE0..=0xEF`, `0xF0..=0xF4`, with the per-leading-byte range of the first
continuation byte that excludes overlong forms, surrogates and values above
`U+10FFFF`; `none` is rejection. -/
def utf8Step : Utf8State → Nat → Option Utf8State
  | .start, b =>
    if b ≤ 0x7F then some .start
    else if 0xC2 ≤ b ∧ b ≤ 0xDF then some (.need 0 0x80 0xBF)
    else if b = 0xE0 then some (.need 1 0xA0 0xBF)
    else if b = 0xED then some (.need 1 0x80 0x9F)
    else if 0xE0 ≤ b ∧ b ≤ 0xEF then some (.need 1 0x80 0xBF)
    else if b = 0xF0 then some (.need 2 0x90 0xBF)
    else if b = 0xF4 then some (.need 2 0x80 0x8F)
    else if 0xF0 ≤ b ∧ b ≤ 0xF4 then some (.need 2 0x80 0xBF)
    else none
  | .need k lo hi, b =>
    if lo ≤ b ∧ b ≤ hi then
      match k with
      | 0 => some .start
      | k' + 1 => some (.need k' 0x80 0xBF)
    else none

/-- Run the validation automaton over a byte list; acceptance requires ending
between characters. -/
def utf8Run : Utf8State → List Nat → Bool
  | st, [] => decide (st = .start)
  | st, b :: rest => (utf8Step st b).elim false (fun st2 => utf8Run st2 rest)

/-- Models the success condition of Rust `String::from_utf8`: the byte list
is accepted by the UTF-8 validation automaton. -/
def validUtf8 (bs : List Nat) : Bool :=
  utf8Run .start bs

/-- Embeds `decrypt_bytes` of the generated `litcrypt_internal` module:
XOR the cipher bytes with the key, then `String::from_utf8(..).unwrap()` —
`some` of the recovered bytes when they are valid UTF-8, `none` (panic)
otherwise. -/
def decrypt_bytes (encrypted encrypt_key : List Nat) : Option (List Nat) :=
  let decrypted := xor encrypted encrypt_key
  if validUtf8 decrypted then some decrypted else none

end litcrypt_internal

/-- Modelled from the spec: the build-time XOR module (`mod xor;`, file
`src/xor.rs`) is not among the sources here, only its callers are.  Spec
§4.4/§9 require the build-time encoder and the runtime decoder to share one
identical XorCipher/KeyStream implementation and index-advance policy, so
`xor::xor` is modelled as the same function as the runtime
`litcrypt_internal::xor`. -/
def xorBuild (source key : List Nat) : List Nat :=
  litcrypt_internal.xor source key

/-- Embeds `get_magic_spell`: the bytes of the `LITCRYPT_ENCRYPT_KEY`
environment value when the override is present, otherwise the 64-byte random
spell cached for the build session. -/
def get_magic_spell (envKey : Option (List Nat)) (randSpell : List Nat) : List Nat :=
  match envKey with
  | some key => key
  | none => randSpell

/-- Embeds the `LITCRYPT_ENCRYPT_KEY` constant emitted by `use_litcrypt`:
`xor::xor(&magic_spell, b"ESJCTVgWH5HQFza7GdRx")`. -/
def litcrypt_encrypt_key (magic_spell : List Nat) : List Nat :=
  xorBuild magic_spell FIXED_KEY

/-- Embeds `encrypt_string`, parametrised by the session's magic spell:
`let encrypt_key = xor::xor(&magic_spell, CONST);`
`let encrypted = xor::xor(&something.as_bytes(), &encrypt_key)`. -/
def encrypt_string (magic_spell something : List Nat) : List Nat :=
  xorBuild something (xorBuild magic_spell FIXED_KEY)

/-- Modelled from the spec: KeyObfuscator `obfuscate` (§4.2) is XOR against
the fixed constant; in the source it occurs inline in `use_litcrypt` and
`encrypt_string` as `xor::xor(&magic_spell, b"ESJCTVgWH5HQFza7GdRx")`. -/
def obfuscate (key : List Nat) : List Nat :=
  xorBuild key FIXED_KEY

/-- Modelled from the spec: KeyObfuscator `reveal` (§4.2) is the same XOR
against the fixed constant; the generated runtime decoder in the source never
performs this step. -/
def reveal (carrierKey : List Nat) : List Nat :=
  xorBuild carrierKey FIXED_KEY

/-! Helper lemmas about the keystream and the cipher. -/

namespace litcrypt_internal

theorem iterTake_length (bytes : List Nat) : ∀ (n : Nat) (index : Nat),
    (iterTake bytes index n).length = n
  | 0, _ => rfl
  | n + 1, index => by
    simp [iterTake, iterTake_length bytes n]

theorem next_index_lt (index count : Nat) (h : 1 ≤ count) :
    next_index index count < count := by
  unfold next_index
  split <;> omega

theorem iterTakeChecked_eq (bytes : List Nat) : ∀ (n index : Nat),
    index < bytes.length →
    iterTakeChecked bytes index n = some (iterTake bytes index n)
  | 0, _, _ => rfl
  | n + 1, index, h => by
    have h1 : 1 ≤ bytes.length := by omega
    have hb : bytes[index]? = some (bytes.getD index 0) := by
      rw [List.getElem?_eq_getElem h, List.getD_eq_getElem bytes 0 h]
    rw [iterTakeChecked, iterTake, hb,
      iterTakeChecked_eq bytes n _ (next_index_lt index bytes.length h1)]
    rfl

theorem zipWith_xor_cancel : ∀ (l s : List Nat), l.length ≤ s.length →
    List.zipWith (fun a b => a ^^^ b)
      (List.zipWith (fun a b => a ^^^ b) l s) s = l
  | [], _, _ => by simp
  | a :: l, b :: s, h => by
    simp only [List.zipWith]
    rw [Nat.xor_cancel_right, zipWith_xor_cancel l s (by simpa using h)]

theorem xorGeneral_length (source key : List Nat) :
    (xorGeneral source key).length = source.length := by
  simp [xorGeneral, iterTake_length]

theorem xorGeneral_cancel (source key : List Nat) :
    xorGeneral (xorGeneral source key) key = source := by
  unfold xorGeneral
  rw [List.length_zipWith, iterTake_length, Nat.min_self]
  exact zipWith_xor_cancel source _ (by rw [iterTake_length])

theorem xor_xor_cancel (source key : List Nat) :
    xor (xor source key) key = source := by
  cases key with
  | nil => rfl
  | cons k1 kt =>
    cases kt with
    | nil =>
      show xor_with_byte (xor_with_byte source k1) k1 = source
      simp [xor_with_byte, List.map_map, Function.comp_def, Nat.xor_cancel_right]
    | cons k2 t =>
      show xorGeneral (xorGeneral source (k1 :: k2 :: t)) (k1 :: k2 :: t) = source
      exact xorGeneral_cancel source (k1 :: k2 :: t)

theorem xor_length (source key : List Nat) :
    (xor source key).length = source.length := by
  cases key with
  | nil => rfl
  | cons k1 kt =>
    cases kt with
    | nil => simp [xor, xor_with_byte]
    | cons k2 t =>
      show (xorGeneral source (k1 :: k2 :: t)).length = source.length
      exact xorGeneral_length source (k1 :: k2 :: t)

theorem xor_nil (key : List Nat) : xor [] key = [] := by
  cases key with
  | nil => rfl
  | cons k1 kt =>
    cases kt with
    | nil => rfl
    | cons k2 t => rfl

theorem iterTake_single (b : Nat) : ∀ (n : Nat),
    iterTake [b] 0 n = List.replicate n b
  | 0 => rfl
  | n + 1 => by
    simp [iterTake, next_index, List.replicate, iterTake_single b n]

theorem zipWith_xor_replicate (b : Nat) : ∀ (l : List Nat),
    List.zipWith (fun a c => a ^^^ c) l (List.replicate l.length b)
      = l.map (fun a => a ^^^ b)
  | [] => rfl
  | a :: l => by
    simp [List.replicate, zipWith_xor_replicate b l]

end litcrypt_internal

/-!
Declarative characterisation of the byte lists accepted by the UTF-8
validator: exactly the concatenations of UTF-8 encodings of Unicode scalar
values, i.e. the byte images of Rust `String`s.
-/

/-- A Unicode scalar value: below `U+110000` and not a surrogate. -/
def ValidScalar (c : Nat) : Prop :=
  c < 0x110000 ∧ (c < 0xD800 ∨ 0xE000 ≤ c)

/-- The UTF-8 encoding of a scalar value (1 to 4 bytes). -/
def utf8EncodeScalar (c : Nat) : List Nat :=
  if c < 0x80 then [c]
  else if c < 0x800 then [0xC0 + c / 64, 0x80 + c % 64]
  else if c < 0x10000 then [0xE0 + c / 4096, 0x80 + c / 64 % 64, 0x80 + c % 64]
  else [0xF0 + c / 262144, 0x80 + c / 4096 % 64, 0x80 + c / 64 % 64, 0x80 + c % 64]

/-- Byte lists that are concatenations of UTF-8 encodings of valid scalar
values — the byte representations of Rust `String`s. -/
inductive Utf8Wf : List Nat → Prop
  | nil : Utf8Wf []
  | cons (c : Nat) (rest : List Nat) : ValidScalar c → Utf8Wf rest →
      Utf8Wf (utf8EncodeScalar c ++ rest)

theorem utf8EncodeScalar_two (b b1 : Nat)
    (hb : 0xC2 ≤ b ∧ b ≤ 0xDF) (hb1 : 0x80 ≤ b1 ∧ b1 ≤ 0xBF) :
    utf8EncodeScalar ((b - 0xC0) * 64 + (b1 - 0x80)) = [b, b1] := by
  unfold utf8EncodeScalar
  rw [if_neg (by omega), if_pos (by omega)]
  have e1 : 0xC0 + ((b - 0xC0) * 64 + (b1 - 0x80)) / 64 = b := by omega
  have e2 : 0x80 + ((b - 0xC0) * 64 + (b1 - 0x80)) % 64 = b1 := by omega
  rw [e1, e2]

theorem utf8EncodeScalar_three (b b1 b2 : Nat)
    (hb : 0xE0 ≤ b ∧ b ≤ 0xEF) (hb1 : 0x80 ≤ b1 ∧ b1 ≤ 0xBF)
    (hb2 : 0x80 ≤ b2 ∧ b2 ≤ 0xBF)
    (hmin : 0x800 ≤ (b - 0xE0) * 4096 + (b1 - 0x80) * 64 + (b2 - 0x80)) :
    utf8EncodeScalar ((b - 0xE0) * 4096 + (b1 - 0x80) * 64 + (b2 - 0x80))
      = [b, b1, b2] := by
  unfold utf8EncodeScalar
  rw [if_neg (by omega), if_neg (by omega), if_pos (by omega)]
  have e1 : 0xE0 + ((b - 0xE0) * 4096 + (b1 - 0x80) * 64 + (b2 - 0x80)) / 4096 = b := by
    omega
  have e2 : 0x80 + ((b - 0xE0) * 4096 + (b1 - 0x80) * 64 + (b2 - 0x80)) / 64 % 64 = b1 := by
    omega
  have e3 : 0x80 + ((b - 0xE0) * 4096 + (b1 - 0x80) * 64 + (b2 - 0x80)) % 64 = b2 := by
    omega
  rw [e1, e2, e3]

theorem utf8EncodeScalar_four (b b1 b2 b3 : Nat)
    (hb : 0xF0 ≤ b ∧ b ≤ 0xF4) (hb1 : 0x80 ≤ b1 ∧ b1 ≤ 0xBF)
    (hb2 : 0x80 ≤ b2 ∧ b2 ≤ 0xBF) (hb3 : 0x80 ≤ b3 ∧ b3 ≤ 0xBF)
    (hmin : 0x10000 ≤ (b - 0xF0) * 262144 + (b1 - 0x80) * 4096
      + (b2 - 0x80) * 64 + (b3 - 0x80)) :
    utf8EncodeScalar ((b - 0xF0) * 262144 + (b1 - 0x80) * 4096
      + (b2 - 0x80) * 64 + (b3 - 0x80)) = [b, b1, b2, b3] := by
  unfold utf8EncodeScalar
  rw [if_neg (by omega), if_neg (by omega), if_neg (by omega)]
  have e1 : 0xF0 + ((b - 0xF0) * 262144 + (b1 - 0x80) * 4096
      + (b2 - 0x80) * 64 + (b3 - 0x80)) / 262144 = b := by omega
  have e2 : 0x80 + ((b - 0xF0) * 262144 + (b1 - 0x80) * 4096
      + (b2 - 0x80) * 64 + (b3 - 0x80)) / 4096 % 64 = b1 := by omega
  have e3 : 0x80 + ((b - 0xF0) * 262144 + (b1 - 0x80) * 4096
      + (b2 - 0x80) * 64 + (b3 - 0x80)) / 64 % 64 = b2 := by omega
  have e4 : 0x80 + ((b - 0xF0) * 262144 + (b1 - 0x80) * 4096
      + (b2 - 0x80) * 64 + (b3 - 0x80)) % 64 = b3 := by omega
  rw [e1, e2, e3, e4]

theorem utf8Run_cons (st : litcrypt_internal.Utf8State) (b : Nat) (rest : List Nat) :
    litcrypt_internal.utf8Run st (b :: rest)
      = (litcrypt_internal.utf8Step st b).elim false
          (fun st2 => litcrypt_internal.utf8Run st2 rest) := by
  simp only [litcrypt_internal.utf8Run]

theorem utf8Run_nil_need (k lo hi : Nat) :
    litcrypt_internal.utf8Run (.need k lo hi) [] = false := rfl

theorem utf8Run_need0 (lo hi : Nat) (bs : List Nat)
    (h : litcrypt_internal.utf8Run (.need 0 lo hi) bs = true) :
    ∃ b rest, bs = b :: rest ∧ lo ≤ b ∧ b ≤ hi ∧
      litcrypt_internal.utf8Run .start rest = true := by
  cases bs with
  | nil =>
    rw [utf8Run_nil_need] at h
    exact Bool.noConfusion h
  | cons b rest =>
    rw [utf8Run_cons] at h
    by_cases hb : lo ≤ b ∧ b ≤ hi
    · refine ⟨b, rest, rfl, hb.1, hb.2, ?_⟩
      rw [show litcrypt_internal.utf8Step (.need 0 lo hi) b = some .start from by
        simp only [litcrypt_internal.utf8Step]; rw [if_pos hb]] at h
      exact h
    · rw [show litcrypt_internal.utf8Step (.need 0 lo hi) b = none from by
        simp only [litcrypt_internal.utf8Step]; rw [if_neg hb]] at h
      exact Bool.noConfusion h

theorem utf8Run_needS (k lo hi : Nat) (bs : List Nat)
    (h : litcrypt_internal.utf8Run (.need (k + 1) lo hi) bs = true) :
    ∃ b rest, bs = b :: rest ∧ lo ≤ b ∧ b ≤ hi ∧
      litcrypt_internal.utf8Run (.need k 0x80 0xBF) rest = true := by
  cases bs with
  | nil =>
    rw [utf8Run_nil_need] at h
    exact Bool.noConfusion h
  | cons b rest =>
    rw [utf8Run_cons] at h
    by_cases hb : lo ≤ b ∧ b ≤ hi
    · refine ⟨b, rest, rfl, hb.1, hb.2, ?_⟩
      rw [show litcrypt_internal.utf8Step (.need (k + 1) lo hi) b
          = some (.need k 0x80 0xBF) from by
        simp only [litcrypt_internal.utf8Step]; rw [if_pos hb]] at h
      exact h
    · rw [show litcrypt_internal.utf8Step (.need (k + 1) lo hi) b = none from by
        simp only [litcrypt_internal.utf8Step]; rw [if_neg hb]] at h
      exact Bool.noConfusion h

theorem validUtf8_encode_append (c : Nat) (hc : ValidScalar c) (rest : List Nat) :
    litcrypt_internal.validUtf8 (utf8EncodeScalar c ++ rest)
      = litcrypt_internal.validUtf8 rest := by
  obtain ⟨hlt, hs⟩ := hc
  by_cases h1 : c < 0x80
  · rw [show utf8EncodeScalar c = [c] from by
      unfold utf8EncodeScalar; rw [if_pos h1]]
    show litcrypt_internal.utf8Run .start (c :: rest) = _
    rw [utf8Run_cons, show litcrypt_internal.utf8Step .start c = some .start from by
      simp only [litcrypt_internal.utf8Step]; rw [if_pos (by omega)]]
    rfl
  · by_cases h2 : c < 0x800
    · rw [show utf8EncodeScalar c = [0xC0 + c / 64, 0x80 + c % 64] from by
        unfold utf8EncodeScalar; rw [if_neg h1, if_pos h2]]
      show litcrypt_internal.utf8Run .start ((0xC0 + c / 64) :: (0x80 + c % 64) :: rest) = _
      rw [utf8Run_cons, show litcrypt_internal.utf8Step .start (0xC0 + c / 64)
          = some (.need 0 0x80 0xBF) from by
        simp only [litcrypt_internal.utf8Step]; rw [if_neg (by omega), if_pos (by omega)]]
      show litcrypt_internal.utf8Run (.need 0 0x80 0xBF) ((0x80 + c % 64) :: rest) = _
      rw [utf8Run_cons, show litcrypt_internal.utf8Step (.need 0 0x80 0xBF) (0x80 + c % 64)
          = some .start from by
        simp only [litcrypt_internal.utf8Step]; rw [if_pos (by omega)]]
      rfl
    · by_cases h3 : c < 0x10000
      · rw [show utf8EncodeScalar c
            = [0xE0 + c / 4096, 0x80 + c / 64 % 64, 0x80 + c % 64] from by
          unfold utf8EncodeScalar; rw [if_neg h1, if_neg h2, if_pos h3]]
        show litcrypt_internal.utf8Run .start ((0xE0 + c / 4096)
          :: (0x80 + c / 64 % 64) :: (0x80 + c % 64) :: rest) = _
        by_cases hA : c < 0x1000
        · rw [utf8Run_cons, show litcrypt_internal.utf8Step .start (0xE0 + c / 4096)
              = some (.need 1 0xA0 0xBF) from by
            simp only [litcrypt_internal.utf8Step]
            rw [if_neg (by omega), if_neg (by omega), if_pos (by omega)]]
          show litcrypt_internal.utf8Run (.need 1 0xA0 0xBF)
            ((0x80 + c / 64 % 64) :: (0x80 + c % 64) :: rest) = _
          rw [utf8Run_cons,
            show litcrypt_internal.utf8Step (.need 1 0xA0 0xBF) (0x80 + c / 64 % 64)
              = some (.need 0 0x80 0xBF) from by
            simp only [litcrypt_internal.utf8Step]; rw [if_pos (by omega)]]
          show litcrypt_internal.utf8Run (.need 0 0x80 0xBF) ((0x80 + c % 64) :: rest) = _
          rw [utf8Run_cons,
            show litcrypt_internal.utf8Step (.need 0 0x80 0xBF) (0x80 + c % 64)
              = some .start from by
            simp only [litcrypt_internal.utf8Step]; rw [if_pos (by omega)]]
          rfl
        · by_cases hB : 0xD000 ≤ c ∧ c < 0xE000
          · rw [utf8Run_cons, show litcrypt_internal.utf8Step .start (0xE0 + c / 4096)
                = some (.need 1 0x80 0x9F) from by
              simp only [litcrypt_internal.utf8Step]
              rw [if_neg (by omega), if_neg (by intro hq; omega),
                if_neg (by intro hq; omega), if_pos (by omega)]]
            show litcrypt_internal.utf8Run (.need 1 0x80 0x9F)
              ((0x80 + c / 64 % 64) :: (0x80 + c % 64) :: rest) = _
            rw [utf8Run_cons,
              show litcrypt_internal.utf8Step (.need 1 0x80 0x9F) (0x80 + c / 64 % 64)
                = some (.need 0 0x80 0xBF) from by
              simp only [litcrypt_internal.utf8Step]; rw [if_pos (by omega)]]
            show litcrypt_internal.utf8Run (.need 0 0x80 0xBF) ((0x80 + c % 64) :: rest) = _
            rw [utf8Run_cons,
              show litcrypt_internal.utf8Step (.need 0 0x80 0xBF) (0x80 + c % 64)
                = some .start from by
              simp only [litcrypt_internal.utf8Step]; rw [if_pos (by omega)]]
            rfl
          · rw [utf8Run_cons, show litcrypt_internal.utf8Step .start (0xE0 + c / 4096)
                = some (.need 1 0x80 0xBF) from by
              simp only [litcrypt_internal.utf8Step]
              rw [if_neg (by omega), if_neg (by intro hq; omega),
                if_neg (by intro hq; omega), if_neg (by intro hq; omega),
                if_pos (by omega)]]
            show litcrypt_internal.utf8Run (.need 1 0x80 0xBF)
              ((0x80 + c / 64 % 64) :: (0x80 + c % 64) :: rest) = _
            rw [utf8Run_cons,
              show litcrypt_internal.utf8Step (.need 1 0x80 0xBF) (0x80 + c / 64 % 64)
                = some (.need 0 0x80 0xBF) from by
              simp only [litcrypt_internal.utf8Step]; rw [if_pos (by omega)]]
            show litcrypt_internal.utf8Run (.need 0 0x80 0xBF) ((0x80 + c % 64) :: rest) = _
            rw [utf8Run_cons,
              show litcrypt_internal.utf8Step (.need 0 0x80 0xBF) (0x80 + c % 64)
                = some .start from by
              simp only [litcrypt_internal.utf8Step]; rw [if_pos (by omega)]]
            rfl
      · rw [show utf8EncodeScalar c = [0xF0 + c / 262144, 0x80 + c / 4096 % 64,
            0x80 + c / 64 % 64, 0x80 + c % 64] from by
          unfold utf8EncodeScalar; rw [if_neg h1, if_neg h2, if_neg h3]]
        show litcrypt_internal.utf8Run .start ((0xF0 + c / 262144)
          :: (0x80 + c / 4096 % 64) :: (0x80 + c / 64 % 64) :: (0x80 + c % 64) :: rest) = _
        have tail2 : ∀ rst : List Nat, litcrypt_internal.utf8Run (.need 1 0x80 0xBF)
            ((0x80 + c / 64 % 64) :: (0x80 + c % 64) :: rst)
            = litcrypt_internal.utf8Run .start rst := by
          intro rst
          rw [utf8Run_cons,
            show litcrypt_internal.utf8Step (.need 1 0x80 0xBF) (0x80 + c / 64 % 64)
              = some (.need 0 0x80 0xBF) from by
            simp only [litcrypt_internal.utf8Step]; rw [if_pos (by omega)]]
          show litcrypt_internal.utf8Run (.need 0 0x80 0xBF) ((0x80 + c % 64) :: rst) = _
          rw [utf8Run_cons,
            show litcrypt_internal.utf8Step (.need 0 0x80 0xBF) (0x80 + c % 64)
              = some .start from by
            simp only [litcrypt_internal.utf8Step]; rw [if_pos (by omega)]]
          rfl
        by_cases hA : c < 0x40000
        · rw [utf8Run_cons, show litcrypt_internal.utf8Step .start (0xF0 + c / 262144)
              = some (.need 2 0x90 0xBF) from by
            simp only [litcrypt_internal.utf8Step]
            rw [if_neg (by omega), if_neg (by intro hq; omega),
              if_neg (by intro hq; omega), if_neg (by intro hq; omega),
              if_neg (by intro hq; omega), if_pos (by omega)]]
          show litcrypt_internal.utf8Run (.need 2 0x90 0xBF)
            ((0x80 + c / 4096 % 64) :: (0x80 + c / 64 % 64) :: (0x80 + c % 64) :: rest) = _
          rw [utf8Run_cons,
            show litcrypt_internal.utf8Step (.need 2 0x90 0xBF) (0x80 + c / 4096 % 64)
              = some (.need 1 0x80 0xBF) from by
            simp only [litcrypt_internal.utf8Step]; rw [if_pos (by omega)]]
          exact tail2 rest
        · by_cases hB : 0x100000 ≤ c
          · rw [utf8Run_cons, show litcrypt_internal.utf8Step .start (0xF0 + c / 262144)
                = some (.need 2 0x80 0x8F) from by
              simp only [litcrypt_internal.utf8Step]
              rw [if_neg (by omega), if_neg (by intro hq; omega),
                if_neg (by intro hq; omega), if_neg (by intro hq; omega),
                if_neg (by intro hq; omega), if_neg (by intro hq; omega),
                if_pos (by omega)]]
            show litcrypt_internal.utf8Run (.need 2 0x80 0x8F)
              ((0x80 + c / 4096 % 64) :: (0x80 + c / 64 % 64) :: (0x80 + c % 64) :: rest) = _
            rw [utf8Run_cons,
              show litcrypt_internal.utf8Step (.need 2 0x80 0x8F) (0x80 + c / 4096 % 64)
                = some (.need 1 0x80 0xBF) from by
              simp only [litcrypt_internal.utf8Step]; rw [if_pos (by omega)]]
            exact tail2 rest
          · rw [utf8Run_cons, show litcrypt_internal.utf8Step .start (0xF0 + c / 262144)
                = some (.need 2 0x80 0xBF) from by
              simp only [litcrypt_internal.utf8Step]
              rw [if_neg (by omega), if_neg (by intro hq; omega),
                if_neg (by intro hq; omega), if_neg (by intro hq; omega),
                if_neg (by intro hq; omega), if_neg (by intro hq; omega),
                if_neg (by intro hq; omega), if_pos (by omega)]]
            show litcrypt_internal.utf8Run (.need 2 0x80 0xBF)
              ((0x80 + c / 4096 % 64) :: (0x80 + c / 64 % 64) :: (0x80 + c % 64) :: rest) = _
            rw [utf8Run_cons,
              show litcrypt_internal.utf8Step (.need 2 0x80 0xBF) (0x80 + c / 4096 % 64)
                = some (.need 1 0x80 0xBF) from by
              simp only [litcrypt_internal.utf8Step]; rw [if_pos (by omega)]]
            exact tail2 rest

theorem validUtf8_of_wf {bs : List Nat} (h : Utf8Wf bs) :
    litcrypt_internal.validUtf8 bs = true := by
  induction h with
  | nil => rfl
  | cons c rest hc _ ih =>
    rw [validUtf8_encode_append c hc rest]
    exact ih

theorem utf8Step_start_cases (b : Nat) (st2 : litcrypt_internal.Utf8State)
    (h : litcrypt_internal.utf8Step .start b = some st2) :
    (b ≤ 0x7F ∧ st2 = .start) ∨
    ((0xC2 ≤ b ∧ b ≤ 0xDF) ∧ st2 = .need 0 0x80 0xBF) ∨
    (b = 0xE0 ∧ st2 = .need 1 0xA0 0xBF) ∨
    (b = 0xED ∧ st2 = .need 1 0x80 0x9F) ∨
    ((0xE0 ≤ b ∧ b ≤ 0xEF ∧ b ≠ 0xE0 ∧ b ≠ 0xED) ∧ st2 = .need 1 0x80 0xBF) ∨
    (b = 0xF0 ∧ st2 = .need 2 0x90 0xBF) ∨
    (b = 0xF4 ∧ st2 = .need 2 0x80 0x8F) ∨
    ((0xF0 ≤ b ∧ b ≤ 0xF4 ∧ b ≠ 0xF0 ∧ b ≠ 0xF4) ∧ st2 = .need 2 0x80 0xBF) := by
  simp only [litcrypt_internal.utf8Step] at h
  split at h
  · rename_i h1
    exact Or.inl ⟨h1, by injection h with h2; exact h2.symm⟩
  · rename_i h1
    split at h
    · rename_i h2
      exact Or.inr (Or.inl ⟨h2, by injection h with he; exact he.symm⟩)
    · rename_i h2
      split at h
      · rename_i h3
        exact Or.inr (Or.inr (Or.inl ⟨h3, by injection h with he; exact he.symm⟩))
      · rename_i h3
        split at h
        · rename_i h4
          exact Or.inr (Or.inr (Or.inr (Or.inl
            ⟨h4, by injection h with he; exact he.symm⟩)))
        · rename_i h4
          split at h
          · rename_i h5
            exact Or.inr (Or.inr (Or.inr (Or.inr (Or.inl
              ⟨⟨h5.1, h5.2, h3, h4⟩, by injection h with he; exact he.symm⟩))))
          · rename_i h5
            split at h
            · rename_i h6
              exact Or.inr (Or.inr (Or.inr (Or.inr (Or.inr (Or.inl
                ⟨h6, by injection h with he; exact he.symm⟩)))))
            · rename_i h6
              split at h
              · rename_i h7
                exact Or.inr (Or.inr (Or.inr (Or.inr (Or.inr (Or.inr (Or.inl
                  ⟨h7, by injection h with he; exact he.symm⟩))))))
              · rename_i h7
                split at h
                · rename_i h8
                  exact Or.inr (Or.inr (Or.inr (Or.inr (Or.inr (Or.inr (Or.inr
                    ⟨⟨h8.1, h8.2, h6, h7⟩, by injection h with he; exact he.symm⟩))))))
                · exact Option.noConfusion h

theorem wf_of_validUtf8_aux : ∀ (n : Nat) (bs : List Nat), bs.length ≤ n →
    litcrypt_internal.validUtf8 bs = true → Utf8Wf bs := by
  intro n
  induction n with
  | zero =>
    intro bs hlen _
    cases bs with
    | nil => exact Utf8Wf.nil
    | cons b rest => simp at hlen
  | succ n ih =>
    intro bs hlen hv
    cases bs with
    | nil => exact Utf8Wf.nil
    | cons b rest =>
      have hlen1 : rest.length ≤ n := by
        simp only [List.length_cons] at hlen
        omega
      simp only [litcrypt_internal.validUtf8] at hv
      rw [utf8Run_cons] at hv
      cases hstep : litcrypt_internal.utf8Step .start b with
      | none =>
        rw [hstep] at hv
        exact Bool.noConfusion hv
      | some st2 =>
        rw [hstep] at hv
        replace hv : litcrypt_internal.utf8Run st2 rest = true := hv
        rcases utf8Step_start_cases b st2 hstep with
          ⟨hb, rfl⟩ | ⟨hb, rfl⟩ | ⟨hb, rfl⟩ | ⟨hb, rfl⟩ | ⟨hb, rfl⟩ |
          ⟨hb, rfl⟩ | ⟨hb, rfl⟩ | ⟨hb, rfl⟩
        · -- leading byte 0x00..=0x7F: one-byte scalar
          have hwf := Utf8Wf.cons b rest ⟨by omega, Or.inl (by omega)⟩ (ih rest hlen1 hv)
          rwa [show utf8EncodeScalar b = [b] from by
            unfold utf8EncodeScalar; rw [if_pos (by omega)]] at hwf
        · -- leading byte 0xC2..=0xDF: two-byte scalar
          obtain ⟨b1, r, hbs, hlo, hhi, hrun⟩ := utf8Run_need0 _ _ _ hv
          subst hbs
          have hr : r.length ≤ n := by
            simp only [List.length_cons] at hlen1
            omega
          have hwf := Utf8Wf.cons ((b - 0xC0) * 64 + (b1 - 0x80)) r
            ⟨by omega, Or.inl (by omega)⟩ (ih r hr hrun)
          rwa [utf8EncodeScalar_two b b1 (by omega) (by omega)] at hwf
        · -- leading byte 0xE0
          obtain ⟨b1, r1, hbs1, hlo1, hhi1, hrun1⟩ := utf8Run_needS _ _ _ _ hv
          subst hbs1
          obtain ⟨b2, r, hbs2, hlo2, hhi2, hrun⟩ := utf8Run_need0 _ _ _ hrun1
          subst hbs2
          have hr : r.length ≤ n := by
            simp only [List.length_cons] at hlen1
            omega
          have hwf := Utf8Wf.cons ((b - 0xE0) * 4096 + (b1 - 0x80) * 64 + (b2 - 0x80)) r
            ⟨by omega, by omega⟩ (ih r hr hrun)
          rwa [utf8EncodeScalar_three b b1 b2 (by omega) (by omega) (by omega)
            (by omega)] at hwf
        · -- leading byte 0xED
          obtain ⟨b1, r1, hbs1, hlo1, hhi1, hrun1⟩ := utf8Run_needS _ _ _ _ hv
          subst hbs1
          obtain ⟨b2, r, hbs2, hlo2, hhi2, hrun⟩ := utf8Run_need0 _ _ _ hrun1
          subst hbs2
          have hr : r.length ≤ n := by
            simp only [List.length_cons] at hlen1
            omega
          have hwf := Utf8Wf.cons ((b - 0xE0) * 4096 + (b1 - 0x80) * 64 + (b2 - 0x80)) r
            ⟨by omega, by omega⟩ (ih r hr hrun)
          rwa [utf8EncodeScalar_three b b1 b2 (by omega) (by omega) (by omega)
            (by omega)] at hwf
        · -- leading byte 0xE1..=0xEC or 0xEE..=0xEF
          obtain ⟨b1, r1, hbs1, hlo1, hhi1, hrun1⟩ := utf8Run_needS _ _ _ _ hv
          subst hbs1
          obtain ⟨b2, r, hbs2, hlo2, hhi2, hrun⟩ := utf8Run_need0 _ _ _ hrun1
          subst hbs2
          have hr : r.length ≤ n := by
            simp only [List.length_cons] at hlen1
            omega
          have hwf := Utf8Wf.cons ((b - 0xE0) * 4096 + (b1 - 0x80) * 64 + (b2 - 0x80)) r
            ⟨by omega, by omega⟩ (ih r hr hrun)
          rwa [utf8EncodeScalar_three b b1 b2 (by omega) (by omega) (by omega)
            (by omega)] at hwf
        · -- leading byte 0xF0
          obtain ⟨b1, r1, hbs1, hlo1, hhi1, hrun1⟩ := utf8Run_needS _ _ _ _ hv
          subst hbs1
          obtain ⟨b2, r2, hbs2, hlo2, hhi2, hrun2⟩ := utf8Run_needS _ _ _ _ hrun1
          subst hbs2
          obtain ⟨b3, r, hbs3, hlo3, hhi3, hrun⟩ := utf8Run_need0 _ _ _ hrun2
          subst hbs3
          have hr : r.length ≤ n := by
            simp only [List.length_cons] at hlen1
            omega
          have hwf := Utf8Wf.cons ((b - 0xF0) * 262144 + (b1 - 0x80) * 4096
            + (b2 - 0x80) * 64 + (b3 - 0x80)) r
            ⟨by omega, by omega⟩ (ih r hr hrun)
          rwa [utf8EncodeScalar_four b b1 b2 b3 (by omega) (by omega) (by omega)
            (by omega) (by omega)] at hwf
        · -- leading byte 0xF4
          obtain ⟨b1, r1, hbs1, hlo1, hhi1, hrun1⟩ := utf8Run_needS _ _ _ _ hv
          subst hbs1
          obtain ⟨b2, r2, hbs2, hlo2, hhi2, hrun2⟩ := utf8Run_needS _ _ _ _ hrun1
          subst hbs2
          obtain ⟨b3, r, hbs3, hlo3, hhi3, hrun⟩ := utf8Run_need0 _ _ _ hrun2
          subst hbs3
          have hr : r.length ≤ n := by
            simp only [List.length_cons] at hlen1
            omega
          have hwf := Utf8Wf.cons ((b - 0xF0) * 262144 + (b1 - 0x80) * 4096
            + (b2 - 0x80) * 64 + (b3 - 0x80)) r
            ⟨by omega, by omega⟩ (ih r hr hrun)
          rwa [utf8EncodeScalar_four b b1 b2 b3 (by omega) (by omega) (by omega)
            (by omega) (by omega)] at hwf
        · -- leading byte 0xF1..=0xF3
          obtain ⟨b1, r1, hbs1, hlo1, hhi1, hrun1⟩ := utf8Run_needS _ _ _ _ hv
          subst hbs1
          obtain ⟨b2, r2, hbs2, hlo2, hhi2, hrun2⟩ := utf8Run_needS _ _ _ _ hrun1
          subst hbs2
          obtain ⟨b3, r, hbs3, hlo3, hhi3, hrun⟩ := utf8Run_need0 _ _ _ hrun2
          subst hbs3
          have hr : r.length ≤ n := by
            simp only [List.length_cons] at hlen1
            omega
          have hwf := Utf8Wf.cons ((b - 0xF0) * 262144 + (b1 - 0x80) * 4096
            + (b2 - 0x80) * 64 + (b3 - 0x80)) r
            ⟨by omega, by omega⟩ (ih r hr hrun)
          rwa [utf8EncodeScalar_four b b1 b2 b3 (by omega) (by omega) (by omega)
            (by omega) (by omega)] at hwf

theorem validUtf8_iff_wf (bs : List Nat) :
    litcrypt_internal.validUtf8 bs = true ↔ Utf8Wf bs :=
  ⟨wf_of_validUtf8_aux bs.length bs le_rfl, validUtf8_of_wf⟩

theorem decrypt_bytes_eq (encrypted key : List Nat) :
    litcrypt_internal.decrypt_bytes encrypted key
      = if litcrypt_internal.validUtf8 (litcrypt_internal.xor encrypted key) = true
        then some (litcrypt_internal.xor encrypted key) else none := rfl

/-! Claim theorems. -/

/-- Claim C1: end-to-end round trip — for every magic spell and every
plaintext string `p` (a valid UTF-8 byte sequence), build-time encoding via
`encrypt_string` followed by runtime decoding via `decrypt_bytes` with the
embedded `LITCRYPT_ENCRYPT_KEY` constant returns exactly `p`. -/
theorem encrypt_then_decrypt_id (magic_spell p : List Nat)
    (h : litcrypt_internal.validUtf8 p = true) :
    litcrypt_internal.decrypt_bytes (encrypt_string magic_spell p)
      (litcrypt_encrypt_key magic_spell) = some p := by
  rw [decrypt_bytes_eq]
  have hx : litcrypt_internal.xor (encrypt_string magic_spell p)
      (litcrypt_encrypt_key magic_spell) = p :=
    litcrypt_internal.xor_xor_cancel p (litcrypt_internal.xor magic_spell FIXED_KEY)
  rw [hx, if_pos h]

/-- Witness for claim C1 at the override key "abc" and plaintext "Voldemort". -/
theorem encrypt_then_decrypt_id_witness :
    litcrypt_internal.decrypt_bytes
      (encrypt_string [97, 98, 99] [86, 111, 108, 100, 101, 109, 111, 114, 116])
      (litcrypt_encrypt_key [97, 98, 99])
      = some [86, 111, 108, 100, 101, 109, 111, 114, 116] :=
  encrypt_then_decrypt_id [97, 98, 99]
    [86, 111, 108, 100, 101, 109, 111, 114, 116] (by decide)

/-- Claim C2 counterexample: with magic spell "abc" and plaintext "V", the
cipher produced by `encrypt_string` differs from
`transform(plaintext, SecretKey)` claimed by the spec, and a cipher built
that way would not decode back to the plaintext with the embedded constant. -/
theorem encoder_uses_carrier_not_secret :
    encrypt_string [97, 98, 99] [86] ≠ litcrypt_internal.xor [86] [97, 98, 99] ∧
    litcrypt_internal.decrypt_bytes (litcrypt_internal.xor [86] [97, 98, 99])
      (litcrypt_encrypt_key [97, 98, 99]) ≠ some [86] := by
  decide

/-- Claim C2 (amended): the build-time encoder XORs each plaintext literal
against the carrier key `obfuscate(SecretKey)`, not the raw SecretKey, and
the runtime decoder XORs the cipher bytes directly against the embedded
carrier-key constant with no reveal step; the protocol is symmetric because
both sides use the same carrier key. -/
theorem carrier_key_protocol (magic_spell p : List Nat)
    (h : litcrypt_internal.validUtf8 p = true) :
    encrypt_string magic_spell p
      = litcrypt_internal.xor p (obfuscate magic_spell) ∧
    litcrypt_internal.decrypt_bytes (litcrypt_internal.xor p (obfuscate magic_spell))
      (litcrypt_encrypt_key magic_spell) = some p := by
  refine ⟨rfl, ?_⟩
  rw [decrypt_bytes_eq]
  have hx : litcrypt_internal.xor (litcrypt_internal.xor p (obfuscate magic_spell))
      (litcrypt_encrypt_key magic_spell) = p :=
    litcrypt_internal.xor_xor_cancel p (litcrypt_internal.xor magic_spell FIXED_KEY)
  rw [hx, if_pos h]

/-- Witness for amended claim C2 at magic spell "abc" and plaintext "V". -/
theorem carrier_key_protocol_witness :
    encrypt_string [97, 98, 99] [86]
      = litcrypt_internal.xor [86] (obfuscate [97, 98, 99]) ∧
    litcrypt_internal.decrypt_bytes
      (litcrypt_internal.xor [86] (obfuscate [97, 98, 99]))
      (litcrypt_encrypt_key [97, 98, 99]) = some [86] :=
  carrier_key_protocol [97, 98, 99] [86] (by decide)

/-- Claim C3 counterexample: at index 0 with buffer length 4 (so that
i + 2 < L), the claimed perturbed Policy B would return 2, but the runtime
decoder's `next_index` returns 1. -/
theorem next_index_not_step_two :
    litcrypt_internal.next_index 0 4 = 1 ∧ litcrypt_internal.next_index 0 4 ≠ 2 := by
  decide

/-- Claim C3 (amended): `next_index` implements the sequential Policy A: for
every index `i < L` it returns `(i + 1) mod L`, i.e. `i + 1` when
`i + 1 < L` and otherwise 0. -/
theorem next_index_sequential (i L : Nat) (h : i < L) :
    litcrypt_internal.next_index i L = (i + 1) % L := by
  unfold litcrypt_internal.next_index
  split
  · rename_i hlt
    rw [Nat.mod_eq_of_lt hlt]
  · rename_i hge
    have hL : i + 1 = L := by omega
    rw [hL, Nat.mod_self]

/-- Witness for amended claim C3 at index 2, buffer length 3. -/
theorem next_index_sequential_witness :
    litcrypt_internal.next_index 2 3 = (2 + 1) % 3 :=
  next_index_sequential 2 3 (by decide)

/-- Claim C4: XOR is self-inverse — for every byte sequence `d` and every
non-empty key `k`, `xor (xor d k) k = d` — and the carrier round trip
`reveal (obfuscate k) = k` holds for every key `k`, both `obfuscate` and
`reveal` being XOR against the fixed constant `b"ESJCTVgWH5HQFza7GdRx"`. -/
theorem xor_self_inverse_and_carrier_round_trip :
    (∀ (d k : List Nat), k ≠ [] →
      litcrypt_internal.xor (litcrypt_internal.xor d k) k = d) ∧
    (∀ k : List Nat, reveal (obfuscate k) = k) :=
  ⟨fun d k _ => litcrypt_internal.xor_xor_cancel d k,
   fun k => litcrypt_internal.xor_xor_cancel k FIXED_KEY⟩

/-- Witness for claim C4 at a concrete data/key pair. -/
theorem xor_self_inverse_and_carrier_round_trip_witness :
    litcrypt_internal.xor (litcrypt_internal.xor [10, 20, 30] [5, 7]) [5, 7]
      = [10, 20, 30] :=
  xor_self_inverse_and_carrier_round_trip.1 [10, 20, 30] [5, 7] (by decide)

/-- Claim C5: `decrypt_bytes` succeeds exactly on valid text — it returns
`some` of the XOR result precisely when that byte sequence is a well-formed
UTF-8 encoding (a concatenation of encodings of Unicode scalar values), it
panics (`none`) precisely otherwise, and any returned string is exactly the
XOR result, never partial or altered text. -/
theorem decrypt_bytes_utf8_dichotomy (encrypted key : List Nat) :
    (Utf8Wf (litcrypt_internal.xor encrypted key) →
      litcrypt_internal.decrypt_bytes encrypted key
        = some (litcrypt_internal.xor encrypted key)) ∧
    (¬ Utf8Wf (litcrypt_internal.xor encrypted key) →
      litcrypt_internal.decrypt_bytes encrypted key = none) ∧
    (∀ s, litcrypt_internal.decrypt_bytes encrypted key = some s →
      s = litcrypt_internal.xor encrypted key) := by
  refine ⟨?_, ?_, ?_⟩
  · intro hwf
    rw [decrypt_bytes_eq, if_pos ((validUtf8_iff_wf _).mpr hwf)]
  · intro hnwf
    rw [decrypt_bytes_eq, if_neg (fun hv => hnwf ((validUtf8_iff_wf _).mp hv))]
  · intro s hs
    rw [decrypt_bytes_eq] at hs
    split at hs
    · injection hs with h2
      exact h2.symm
    · exact Option.noConfusion hs

/-- Witness for claim C5: decoding the bytes of "Hi" with the empty key. -/
theorem decrypt_bytes_utf8_dichotomy_witness :
    litcrypt_internal.decrypt_bytes [72, 105] [] = some [72, 105] :=
  (decrypt_bytes_utf8_dichotomy [72, 105] []).1
    ((validUtf8_iff_wf (litcrypt_internal.xor [72, 105] [])).mp (by decide))

/-- Claim C6: the empty key is the identity transform — for every byte
sequence `d`, `xor d [] = d`, a documented degenerate case, not an error. -/
theorem xor_empty_key_identity (d : List Nat) :
    litcrypt_internal.xor d [] = d := rfl

/-- Claim C7: single-byte equivalence — `xor d [b]` equals XOR-ing every byte
of `d` with `b`, and the fast path matches byte-for-byte the general
keystream machinery (`xorGeneral`, the `InfiniteByteIterator` path) run with
the length-1 key. -/
theorem xor_single_byte_equivalence (d : List Nat) (b : Nat) :
    litcrypt_internal.xor d [b] = d.map (fun a => a ^^^ b) ∧
    litcrypt_internal.xor d [b] = litcrypt_internal.xorGeneral d [b] := by
  constructor
  · rfl
  · show litcrypt_internal.xor_with_byte d b
      = List.zipWith (fun a c => a ^^^ c) d (litcrypt_internal.iterTake [b] 0 d.length)
    rw [litcrypt_internal.iterTake_single b d.length,
      litcrypt_internal.zipWith_xor_replicate]
    rfl

/-- Claim C8: length preservation — `xor` output always has the length of
its source — and the empty-plaintext round trip: encrypting the empty string
yields empty cipher bytes and decoding the empty cipher returns the empty
string, for any key. -/
theorem xor_length_preservation_and_empty (d key : List Nat) :
    (litcrypt_internal.xor d key).length = d.length ∧
    encrypt_string key [] = [] ∧
    litcrypt_internal.decrypt_bytes [] key = some [] := by
  refine ⟨litcrypt_internal.xor_length d key, ?_, ?_⟩
  · show litcrypt_internal.xor [] (litcrypt_internal.xor key FIXED_KEY) = []
    exact litcrypt_internal.xor_nil _
  · rw [decrypt_bytes_eq, litcrypt_internal.xor_nil key]
    rfl

/-- Claim C9: an empty `LITCRYPT_ENCRYPT_KEY` override makes
`get_magic_spell` return the empty key, the derived encryption key is then
empty, and encryption degenerates to the identity — the embedded cipher
bytes equal the plaintext bytes verbatim. -/
theorem empty_override_encrypts_identically (randSpell p : List Nat) :
    get_magic_spell (some []) randSpell = [] ∧
    litcrypt_encrypt_key (get_magic_spell (some []) randSpell) = [] ∧
    encrypt_string (get_magic_spell (some []) randSpell) p = p := by
  refine ⟨rfl, ?_, ?_⟩
  · show litcrypt_internal.xor [] FIXED_KEY = []
    exact litcrypt_internal.xor_nil _
  · show litcrypt_internal.xor p (litcrypt_internal.xor [] FIXED_KEY) = p
    rw [litcrypt_internal.xor_nil]
    rfl

/-- Claim C10: the unguarded indexing in `InfiniteByteIterator::next` is
always in bounds — for a key of length at least 2 (the only shape `xor`
constructs the iterator for) starting at index 0, the panic-faithful
iterator model agrees with the total one for any number of steps, and
`next_index` returns an index strictly below `count` whenever `count ≥ 1`. -/
theorem iterator_index_always_in_bounds (key : List Nat) (n : Nat)
    (hkey : 2 ≤ key.length) :
    litcrypt_internal.iterTakeChecked key 0 n
      = some (litcrypt_internal.iterTake key 0 n) ∧
    (∀ i c, 1 ≤ c → litcrypt_internal.next_index i c < c) :=
  ⟨litcrypt_internal.iterTakeChecked_eq key n 0 (by omega),
   fun i c hc => litcrypt_internal.next_index_lt i c hc⟩

/-- Witness for claim C10 at a concrete two-byte key and five steps. -/
theorem iterator_index_always_in_bounds_witness :
    litcrypt_internal.iterTakeChecked [9, 8] 0 5
      = some (litcrypt_internal.iterTake [9, 8] 0 5) :=
  (iterator_index_always_in_bounds [9, 8] 5 (by decide)).1

end Litcrypt
